import Mathlib

/-!
Verification of the connect3 repository: a terminal tool recording people and
weighted directed relations between them, persisted as a JSON document.

The development shallowly embeds the Go source:
- the data model (`internal/person`, `internal/relation`, `internal/db`),
- the repository operations and `loadData`/`saveData` from `cmd/connect3/main.go`,
- the schema migrator (`internal/migration/manager.go`),
- the session controller (`model.Update` in `cmd/connect3/main.go`) as a step
  function over an explicit model state.

External collaborators (bubbletea rendering, the textinput/list widgets, the
file system) are abstracted: text inputs are plain strings, lists are an item
list plus a cursor index, and the store is an explicit read/write value.
`uuid.New()` is modelled as an external supply `gen : Nat → String` indexed by
a counter.
-/

namespace Connect3

/-- `internal/person/person.go`: the Person record.  The snapshot of
`internal/person` in the repository predates the tags feature; the current
`main.go` reads and writes `p.Tags`. Modelled from the spec: the `tags`
field (`tags` (set of strings) in §3 of the spec). -/
structure Person where
  id : String
  name : String
  notes : String
  tags : List String
  deriving DecidableEq

/-- `internal/relation/relation.go`: the Relation record. `Strength` is a Go
`int`; strengths are modelled as unbounded `Int` (the Go values fit easily). -/
structure Relation where
  id : String
  fromId : String
  toId : String
  strength : Int
  description : String
  deriving DecidableEq

/-- `internal/db/database.go`: the persisted aggregate.  The snapshot of
`internal/db` in the repository predates the version feature; the current
`main.go` constructs `db.Database{..., Version: config.DB_FORMAT_VERSION}`.
Modelled from the spec: the `version` field (§3 Document). -/
structure Database where
  people : List Person
  relations : List Relation
  version : String
  deriving DecidableEq

/-- Modelled from the spec: `internal/config` is not in the snapshot; the
current schema version is `"1.0.0"` (spec §8 scenario, corroborated by
`ToVersion: "1.0.0"` in `internal/migration/manager.go`). -/
def DB_FORMAT_VERSION : String := "1.0.0"

/-- `relation.RelationItem`: list entry for the relations list in the detail
view (`internal/relation/relation.go`). -/
structure RelationItem where
  rel : Relation
  otherName : String
  direction : String
  deriving DecidableEq

-- ### String helpers mirroring the Go standard library

/-- Does `h` start with `n`?  (`strings.HasPrefix` on rune lists.) -/
def hasPre : List Char → List Char → Bool
  | _, [] => true
  | [], _ :: _ => false
  | a :: as, b :: bs => a == b && hasPre as bs

/-- Does `n` occur as a contiguous substring of `h`?  (`strings.Contains` on
rune lists.) -/
def containsSeq : List Char → List Char → Bool
  | [], n => hasPre [] n
  | a :: t, n => hasPre (a :: t) n || containsSeq t n

/-- `strings.Contains haystack needle` (ASCII-faithful). -/
def strContains (h n : String) : Bool := containsSeq h.toList n.toList

/-- `strings.ToLower`: lowercase every rune. -/
def strToLower (s : String) : String := ⟨s.data.map Char.toLower⟩

/-- `unicode.IsSpace` on the ASCII space set Go uses for trimming:
space, \t, \n, \v, \f, \r (exotic Unicode spaces left aside). -/
def isSpaceChar (c : Char) : Bool := c.toNat = 32 || (9 ≤ c.toNat && c.toNat ≤ 13)

/-- `strings.TrimSpace`: strip leading and trailing whitespace. -/
def trimSpace (s : String) : String :=
  ⟨((s.data.dropWhile isSpaceChar).reverse.dropWhile isSpaceChar).reverse⟩

-- ### `strconv.Atoi` (base-10 `ParseInt` into a 64-bit int)

/-- Nonempty all-decimal-digit rune sequence: the body a base-10 `ParseInt`
accepts after the optional sign. -/
def digitsOK (cs : List Char) : Bool := !cs.isEmpty && cs.all (fun c => c.isDigit)

/-- Numeric value of a digit sequence. -/
def digitsVal (cs : List Char) : Nat := cs.foldl (fun a c => a * 10 + (c.toNat - 48)) 0

/-- The syntax phase of a base-10 `ParseInt`: an optional single leading
sign followed by one or more decimal digits, evaluated exactly; `none` on
any other shape (`ErrSyntax`). -/
def atoiParse (s : String) : Option Int :=
  match s.toList with
  | '-' :: r => if digitsOK r then some (-(digitsVal r : Int)) else none
  | '+' :: r => if digitsOK r then some (digitsVal r : Int) else none
  | r => if digitsOK r then some (digitsVal r : Int) else none

/-- Does `s` have the syntax `strconv.Atoi` accepts? -/
def intSyntaxOK (s : String) : Bool := (atoiParse s).isSome

/-- `strconv.Atoi` as used by `strVal, _ := strconv.Atoi(...)`: the returned
int with the error discarded.  Syntax errors yield 0; values beyond the
64-bit range yield the clamped extreme (Go returns `MaxInt64`/`MinInt64`
together with `ErrRange`). -/
def atoiVal (s : String) : Int :=
  match atoiParse s with
  | none => 0
  | some v =>
      if v < -(2 ^ 63) then -(2 ^ 63)
      else if v > 2 ^ 63 - 1 then 2 ^ 63 - 1
      else v

/-- The strength clamp in the relation-form commit handler (`main.go`):
`if strVal < 1 { strVal = 1 }; if strVal > 5 { strVal = 5 }`. -/
def clampStrength (v : Int) : Int :=
  let a := if v < 1 then 1 else v
  if a > 5 then 5 else a

-- ### Tag index (`getAllUniqueTags`, `updateTagListFilter` in `main.go`)

/-- Lexicographic ≤ on rune lists by code point.  Go compares strings
bytewise; UTF-8 preserves code-point order, so this is Go's `<=` on
strings. -/
def listLe : List Char → List Char → Bool
  | [], _ => true
  | _ :: _, [] => false
  | a :: as, b :: bs =>
      if a.toNat = b.toNat then listLe as bs else decide (a.toNat < b.toNat)

/-- Go's `<=` on strings. -/
def strLe (a b : String) : Bool := listLe a.toList b.toList

/-- Sorted insertion of one string. -/
def insertSorted (x : String) : List String → List String
  | [] => [x]
  | y :: t => if strLe x y then x :: y :: t else y :: insertSorted x t

/-- Ascending insertion sort.  `sort.Slice(items, items[i] < items[j])`
produces the ascending-ordered permutation of `items`; on distinct
elements (the tag pool is deduplicated) that permutation is unique, so any
sorted permutation — this one — is the same list. -/
def sortStrings : List String → List String
  | [] => []
  | x :: t => insertSorted x (sortStrings t)

/-- First-occurrence deduplication; the set of keys of the Go
`map[string]bool` built by inserting the given strings in order. -/
def dedupStr : List String → List String
  | [] => []
  | s :: t => if s ∈ t then dedupStr t else s :: dedupStr t

/-- `getAllUniqueTags`: the distinct tag strings across all people.  Go
returns them in nondeterministic map order; the model returns one
enumeration of the same set (every consumer sorts before display). -/
def getAllUniqueTags (people : List Person) : List String :=
  dedupStr (people.foldr (fun p acc => p.tags ++ acc) [])

/-- `updateTagListFilter`: the items shown in the tag-select list, as a
function of the people in the database, the pending tag buffer and the tag
input's text.  Mirrors the Go code: term := lower(trim(input)); pool :=
db tags ∪ pending tags; keep tags whose lowered text contains the term
(everything when the term is empty); sort ascending.  The Go map iteration
order is nondeterministic, but the final `sort.Slice` with `<` on the
distinct survivors makes the displayed list deterministic. -/
def updateTagListFilter (people : List Person) (tempTags : List String)
    (input : String) : List String :=
  let term := strToLower (trimSpace input)
  let pool := dedupStr (getAllUniqueTags people ++ tempTags)
  let items := pool.filter (fun t => term == "" || strContains (strToLower t) term)
  sortStrings items

-- ### Repository load/save (`loadData`, `saveData` in `main.go`)

/-- Outcome of reading and JSON-decoding the store file in `loadData`.
`noFile` is an `os.Open` error.  `decodeErr d` is a byte content on which
`json.Unmarshal` returned an error after leaving `d` in the target struct:
for invalid JSON syntax (the empty file among it) `encoding/json` validates
the input up front and leaves the zero value (`d` = empty slices, empty
version string), while an `UnmarshalTypeError` — valid JSON with a
mistyped field, e.g. `version` holding a number — decodes every other
field, so `d` can be partially populated and non-empty.  `parsed d` is a
clean decode into `d`; serialization round-trips, so the value written by
`saveData` is the value `parsed` yields on the next read.  The code
discards the `json.Unmarshal` error, so `decodeErr d` and `parsed d` flow
into the same continuation. -/
inductive FileRead where
  | noFile
  | decodeErr (d : Database)
  | parsed (d : Database)
  deriving DecidableEq

/-- The relation-ID backfill loop in `loadData`: walk the relations in order,
give each relation whose `ID` is the empty string the next fresh identifier
from the supply `gen` (modelling `uuid.New().String()`), and report whether
anything changed. Returns (new relations, next counter, dirty). -/
def backfillRels (gen : Nat → String) : Nat → List Relation → List Relation × Nat × Bool
  | k, [] => ([], k, false)
  | k, r :: rs =>
      if r.id = "" then
        let rest := backfillRels gen (k + 1) rs
        ({ r with id := gen k } :: rest.1, rest.2.1, true)
      else
        let rest := backfillRels gen k rs
        (r :: rest.1, rest.2.1, rest.2.2)

/-- The tail of `loadData` after the file was opened and `json.Unmarshal`
ran: `d` is whatever the unmarshal left in the struct (its error, if any,
was discarded at the call site); backfill empty relation ids and persist
exactly when something changed. -/
def loadBytes (gen : Nat → String) (d : Database) : Database × Option Database :=
  let res := backfillRels gen 0 d.relations
  let d2 := { d with relations := res.1 }
  (d2, if res.2.2 then some d2 else none)

/-- `loadData`: returns the in-memory database together with the write the
call performs, if any (`saveData` is called exactly when some backfill
happened).  On an open error it returns the empty database stamped with the
current format version.  A `json.Unmarshal` error is ignored, so a decode
failure proceeds exactly like a clean decode of whatever the unmarshal left
behind. -/
def loadData (gen : Nat → String) (f : FileRead) : Database × Option Database :=
  match f with
  | .noFile => ({ people := [], relations := [], version := DB_FORMAT_VERSION }, none)
  | .decodeErr d => loadBytes gen d
  | .parsed d => loadBytes gen d

-- ### Schema migrator (`internal/migration/manager.go`)

/-- Untyped JSON value, the image of Go's `map[string]any` / `[]any` world
the migrator works in.  JSON numbers decode to `float64` in Go; the
migrator never inspects numbers, so they are carried as `Int` here. -/
inductive JVal where
  | jnull
  | jbool (b : Bool)
  | jnum (n : Int)
  | jstr (s : String)
  | jarr (xs : List JVal)
  | jobj (fs : List (String × JVal))

/-- Map lookup `data[k]` on an object's fields. -/
def jget (fs : List (String × JVal)) (k : String) : Option JVal :=
  (fs.find? (fun kv => kv.1 == k)).map (fun kv => kv.2)

/-- Map store `data[k] = v`: replace the first binding of `k`, appending a
new binding when `k` is absent (Go map assignment on objects whose keys are
unique, as `json.Unmarshal` produces). -/
def jset : List (String × JVal) → String → JVal → List (String × JVal)
  | [], k, v => [(k, v)]
  | (k2, v2) :: t, k, v => if k2 == k then (k, v) :: t else (k2, v2) :: jset t k v

/-- The body of the per-person loop in `migrate_0_0_1_to_1_0_0`: person
entries that are not objects are skipped; object entries get
`tags: []` when the key is absent. -/
def addTagsField (p : JVal) : JVal :=
  match p with
  | .jobj fs => .jobj (if (jget fs "tags").isSome then fs else jset fs "tags" (.jarr []))
  | other => other

/-- `migrate_0_0_1_to_1_0_0`: when `data["people"]` is an array, give every
person object a `tags` field; otherwise return the document unchanged.
(The Go function can also return an error but never does.) -/
def migrate_0_0_1_to_1_0_0 (data : List (String × JVal)) : List (String × JVal) :=
  match jget data "people" with
  | some (.jarr ps) => jset data "people" (.jarr (ps.map addTagsField))
  | _ => data

/-- One entry of the migration table. -/
structure Migration where
  fromVersion : String
  toVersion : String
  apply : List (String × JVal) → List (String × JVal)

/-- The `migrations` table: the single 0.0.1 → 1.0.0 transform. -/
def migrations : List Migration :=
  [{ fromVersion := "0.0.1", toVersion := "1.0.0", apply := migrate_0_0_1_to_1_0_0 }]

/-- The migration loop of `RunMigrations`: repeatedly find a migration whose
`FromVersion` equals the current version, apply it, write the new version
into the document, and mark it dirty; stop when no migration matches.
The Go loop is unbounded; with the table above it applies at most one
transform (after a step the version is `"1.0.0"`, which no entry matches),
so fuel 2 is never exhausted before the natural exit. -/
def migLoop : Nat → List (String × JVal) → String → Bool → List (String × JVal) × Bool
  | 0, data, _, dirty => (data, dirty)
  | Nat.succ fuel, data, ver, dirty =>
      match migrations.find? (fun mg => mg.fromVersion == ver) with
      | none => (data, dirty)
      | some mg => migLoop fuel (jset (mg.apply data) "version" (.jstr mg.toVersion)) mg.toVersion true

/-- The store file as `RunMigrations` sees it: absent, content that
`json.Unmarshal` rejects (the empty file among it: unmarshalling zero bytes
fails with an unexpected-end-of-input error), an `os.ReadFile` error, or a
decoded top-level object. -/
inductive MigFile where
  | notExist
  | readFail
  | badJSON
  | doc (fs : List (String × JVal))

/-- `RunMigrations`: `.ok none` means the call returned nil without writing
the file, `.ok (some d)` means it returned nil after rewriting the file
with `d`, `.error ()` is a non-nil error returned to `main` (which then
aborts startup).  A missing file is skipped; any other read or decode
failure is an error. A document whose `version` is not a string falls back
to `"0.0.0"`. -/
def runMigrations (f : MigFile) : Except Unit (Option (List (String × JVal))) :=
  match f with
  | .notExist => .ok none
  | .readFail => .error ()
  | .badJSON => .error ()
  | .doc fs =>
      let ver := match jget fs "version" with
        | some (.jstr s) => s
        | _ => "0.0.0"
      let res := migLoop 2 fs ver false
      .ok (if res.2 then some res.1 else none)

-- ### Session controller (`model` and `model.Update` in `main.go`)

/-- `sessionState`: the eight views. -/
inductive SState where
  | listPeople
  | detail
  | personForm
  | relationTarget
  | relationForm
  | confirmDeletePerson
  | confirmDeleteRelation
  | tagSelect
  deriving DecidableEq

/-- The `model` struct, with the opaque bubbles widgets replaced by their
observable content: a list widget is its items plus a cursor (the widget
keeps the cursor inside the item range; `SelectedItem` is the item under
the cursor), a text widget is its string value plus a focus flag.  Styling,
sizes and titles are presentational and omitted.  `uuidCount` indexes the
external identifier supply standing for `uuid.New()`. -/
structure Model where
  state : SState
  db : Database
  peopleItems : List Person
  peopleCursor : Nat
  relItems : List RelationItem
  relCursor : Nat
  tagItems : List String
  tagCursor : Nat
  selectedPerson : Option Person
  selectedRel : Option Relation
  targetPerson : Option Person
  isEditing : Bool
  inputName : String
  inputNotes : String
  inputRelDesc : String
  inputRelStr : String
  inputTag : String
  nameFocused : Bool
  relStrFocused : Bool
  tempTags : List String
  uuidCount : Nat
  deriving DecidableEq

/-- Abstraction of the messages `Update` receives.  `key s` is a
`tea.KeyMsg` with `msg.String() = s`.  The remaining constructors are the
observable effects of the fallthrough `widget.Update(msg)` calls on
messages the state handler does not intercept: a cursor move inside a list
widget (filtering in the people list only ever selects one of the widget's
items, so any selection is some index into the item list) or an edit of a
text widget's value. -/
inductive Event where
  | key (s : String)
  | peopleCursor (i : Nat)
  | relCursor (i : Nat)
  | nameText (v : String)
  | notesText (v : String)
  | relDescText (v : String)
  | relStrText (v : String)
  | tagText (v : String)

/-- `peopleToItems` (and the `SetItems` calls after people mutations). -/
def peopleToItems (people : List Person) : List Person := people

/-- `getName`: name of the person with the given id, `"Unknown"` if absent. -/
def getName (people : List Person) (pid : String) : String :=
  match people.find? (fun p => p.id == pid) with
  | some p => p.name
  | none => "Unknown"

/-- `model.refreshRelationList`: the relation-list items for the selected
person — every relation touching them, with the other endpoint's name and
the display direction (`"<-"` when the selected person is the target). -/
def refreshRelItems (db : Database) (sel : Person) : List RelationItem :=
  db.relations.filterMap (fun r =>
    if r.fromId == sel.id || r.toId == sel.id then
      if r.toId == sel.id then
        some { rel := r, otherName := getName db.people r.fromId, direction := "<-" }
      else
        some { rel := r, otherName := getName db.people r.toId, direction := "->" }
    else none)

/-- The person-edit commit: overwrite name/notes/tags of the first person
with the given id (the Go loop breaks after the first match). -/
def updatePeopleFirst (ps : List Person) (pid nm ns : String) (tg : List String) : List Person :=
  match ps with
  | [] => []
  | q :: t =>
      if q.id == pid then { q with name := nm, notes := ns, tags := tg } :: t
      else q :: updatePeopleFirst t pid nm ns tg

/-- The relation-edit commit: overwrite strength/description of the first
relation with the given id (the Go loop breaks after the first match). -/
def updateRelsFirst (rs : List Relation) (rid : String) (v : Int) (ds : String) : List Relation :=
  match rs with
  | [] => []
  | r :: t =>
      if r.id == rid then { r with strength := v, description := ds } :: t
      else r :: updateRelsFirst t rid v ds

/-- The confirmed person delete (`viewConfirmDeletePerson`, key `y`): drop
every relation whose `FromID` or `ToID` is the person's id, then drop every
person with that id. -/
def cascadeDelete (db : Database) (pid : String) : Database :=
  { db with
    relations := db.relations.filter (fun r => !(r.fromId == pid) && !(r.toId == pid)),
    people := db.people.filter (fun p => !(p.id == pid)) }

/-- Tag-commit resolution (`viewTagSelect`, key `enter`): the highlighted
list entry when the list is nonempty, otherwise the trimmed input text;
then the fallback `if selectedTag == "" && input != ""` re-reads the
trimmed input. -/
def resolveTagCandidate (m : Model) : String :=
  let sel0 :=
    match m.tagItems with
    | [] => trimSpace m.inputTag
    | _ :: _ => m.tagItems.getD m.tagCursor ""
  if sel0 == "" && !(m.inputTag == "") then trimSpace m.inputTag else sel0

/-- The ids of a people list. -/
def peopleIds (ps : List Person) : List String := ps.map (fun p => p.id)

/-- The Document invariant of the spec: every relation's endpoints
reference existing people and differ (no self-loops). -/
def DocInv (db : Database) : Prop :=
  ∀ r ∈ db.relations,
    r.fromId ∈ peopleIds db.people ∧ r.toId ∈ peopleIds db.people ∧ r.fromId ≠ r.toId

/-- The states in which the Go code holds (and dereferences) a selected
person: the detail view and everything reached from it; the person form
and tag view only while editing an existing person. -/
def selReq (s : SState) (editing : Bool) : Bool :=
  match s with
  | .detail | .relationTarget | .relationForm
  | .confirmDeletePerson | .confirmDeleteRelation => true
  | .personForm | .tagSelect => editing
  | .listPeople => false

/-- In selection states the selected person exists in the database. -/
def SelInv (m : Model) : Prop :=
  selReq m.state m.isEditing = true →
    ∃ p, m.selectedPerson = some p ∧ p.id ∈ peopleIds m.db.people

/-- In the creating relation form both endpoints are chosen, exist, and
differ. -/
def TargetInv (m : Model) : Prop :=
  m.state = SState.relationForm → m.isEditing = false →
    ∃ p t, m.selectedPerson = some p ∧ m.targetPerson = some t ∧
      p.id ∈ peopleIds m.db.people ∧ t.id ∈ peopleIds m.db.people ∧ p.id ≠ t.id

/-- The controller invariant: the document invariant, the people list
mirroring the database (the code calls `SetItems` after every people
mutation), and the selection conditions. -/
def Inv (m : Model) : Prop :=
  DocInv m.db ∧ m.peopleItems = m.db.people ∧ SelInv m ∧ TargetInv m

/-! Each handler returns the next model together with the list of `saveData`
calls the step performs, in order, each carrying the database value written.
Branches in which the Go code would dereference a nil selection pointer
(unreachable in program runs, see the invariant below) are modelled as
no-ops. -/

/-- `viewListPeople` key handling. -/
def handleListPeople (m : Model) (s : String) : Model × List Database :=
  if s == "n" then
    ({ m with tempTags := [], state := .personForm, isEditing := false,
              inputName := "", inputNotes := "", nameFocused := true }, [])
  else if s == "enter" then
    match m.peopleItems.get? m.peopleCursor with
    | some p =>
        ({ m with selectedPerson := some p, state := .detail,
                  relItems := refreshRelItems m.db p, relCursor := 0 }, [])
    | none => (m, [])
  else (m, [])

/-- `viewDetail` key handling. -/
def handleDetail (m : Model) (s : String) : Model × List Database :=
  if s == "esc" || s == "backspace" then
    ({ m with state := .listPeople, selectedPerson := none }, [])
  else if s == "E" then
    match m.selectedPerson with
    | some p =>
        ({ m with tempTags := p.tags, state := .personForm, isEditing := true,
                  inputName := p.name, inputNotes := p.notes, nameFocused := true }, [])
    | none => (m, [])
  else if s == "ctrl+g" then
    match m.selectedPerson with
    | some p =>
        ({ m with tempTags := p.tags, isEditing := true,
                  inputName := p.name, inputNotes := p.notes,
                  inputTag := "",
                  tagItems := updateTagListFilter m.db.people p.tags "",
                  tagCursor := 0, state := .tagSelect }, [])
    | none => (m, [])
  else if s == "D" then
    ({ m with state := .confirmDeletePerson }, [])
  else if s == "n" then
    ({ m with state := .relationTarget, peopleCursor := 0 }, [])
  else if s == "e" then
    match m.relItems.get? m.relCursor with
    | some it =>
        ({ m with selectedRel := some it.rel, state := .relationForm, isEditing := true,
                  inputRelDesc := it.rel.description,
                  inputRelStr := toString it.rel.strength,
                  relStrFocused := true }, [])
    | none => (m, [])
  else if s == "d" then
    match m.relItems.get? m.relCursor with
    | some it =>
        ({ m with selectedRel := some it.rel, state := .confirmDeleteRelation }, [])
    | none => (m, [])
  else (m, [])

/-- `viewPersonForm` key handling (the commit on `enter` while the name
field is focused only advances focus to the notes field). -/
def handlePersonForm (gen : Nat → String) (m : Model) (s : String) : Model × List Database :=
  if s == "esc" then
    ({ m with state := if m.isEditing then .detail else .listPeople }, [])
  else if s == "tab" then
    ({ m with nameFocused := !m.nameFocused }, [])
  else if s == "ctrl+g" then
    ({ m with inputTag := "",
              tagItems := updateTagListFilter m.db.people m.tempTags "",
              tagCursor := 0, state := .tagSelect, nameFocused := false }, [])
  else if s == "enter" then
    if m.nameFocused then ({ m with nameFocused := false }, [])
    else if m.isEditing then
      match m.selectedPerson with
      | some p =>
          let people2 := updatePeopleFirst m.db.people p.id m.inputName m.inputNotes m.tempTags
          let db2 := { m.db with people := people2 }
          let sel2 := match people2.find? (fun q => q.id == p.id) with
            | some q => some q
            | none => m.selectedPerson
          ({ m with db := db2, selectedPerson := sel2,
                    peopleItems := peopleToItems people2, state := .detail }, [db2])
      | none => (m, [])
    else
      let newP : Person := { id := gen m.uuidCount, name := m.inputName,
                             notes := m.inputNotes, tags := m.tempTags }
      let db2 := { m.db with people := m.db.people ++ [newP] }
      ({ m with db := db2, uuidCount := m.uuidCount + 1,
                peopleItems := peopleToItems db2.people, state := .listPeople }, [db2])
  else (m, [])

/-- `viewTagSelect` key handling. -/
def handleTagSelect (m : Model) (s : String) : Model × List Database :=
  if s == "esc" then
    ({ m with state := .personForm, nameFocused := true }, [])
  else if s == "down" then
    ({ m with tagCursor := if m.tagCursor + 1 < m.tagItems.length then m.tagCursor + 1 else m.tagCursor }, [])
  else if s == "up" then
    ({ m with tagCursor := m.tagCursor - 1 }, [])
  else if s == "enter" then
    let cand := resolveTagCandidate m
    let temp2 := if cand == "" then m.tempTags
      else if m.tempTags.contains cand then m.tempTags
      else m.tempTags ++ [cand]
    ({ m with tempTags := temp2, state := .personForm, nameFocused := true }, [])
  else (m, [])

/-- `viewConfirmDeletePerson` key handling: `y`/`Y` performs the cascade
delete and the single save; `n`/`N`/`esc` return to the detail view. -/
def handleConfirmDeletePerson (m : Model) (s : String) : Model × List Database :=
  if s == "y" || s == "Y" then
    match m.selectedPerson with
    | some p =>
        let db2 := cascadeDelete m.db p.id
        ({ m with db := db2, peopleItems := peopleToItems db2.people,
                  state := .listPeople, selectedPerson := none }, [db2])
    | none => (m, [])
  else if s == "n" || s == "N" || s == "esc" then
    ({ m with state := .detail }, [])
  else (m, [])

/-- `viewRelationTarget` key handling: choosing the currently selected
person as the target is rejected (`return m, nil` with no field changed). -/
def handleRelationTarget (m : Model) (s : String) : Model × List Database :=
  if s == "esc" then
    ({ m with state := .detail }, [])
  else if s == "enter" then
    match m.peopleItems.get? m.peopleCursor with
    | some i =>
        match m.selectedPerson with
        | some sp =>
            if i.id == sp.id then (m, [])
            else
              ({ m with targetPerson := some i, state := .relationForm,
                        isEditing := false, relStrFocused := true,
                        inputRelStr := "", inputRelDesc := "" }, [])
        | none => (m, [])
    | none => (m, [])
  else (m, [])

/-- `viewRelationForm` key handling (the commit on `enter` while the
strength field is focused only advances focus to the description field). -/
def handleRelationForm (gen : Nat → String) (m : Model) (s : String) : Model × List Database :=
  if s == "esc" then
    ({ m with state := .detail }, [])
  else if s == "tab" then
    ({ m with relStrFocused := !m.relStrFocused }, [])
  else if s == "enter" then
    if m.relStrFocused then ({ m with relStrFocused := false }, [])
    else
      let strVal := clampStrength (atoiVal m.inputRelStr)
      if m.isEditing then
        match m.selectedRel, m.selectedPerson with
        | some sr, some sp =>
            let db2 := { m.db with relations := updateRelsFirst m.db.relations sr.id strVal m.inputRelDesc }
            ({ m with db := db2, relItems := refreshRelItems db2 sp,
                      relCursor := 0, state := .detail }, [db2])
        | _, _ => (m, [])
      else
        match m.selectedPerson, m.targetPerson with
        | some sp, some tp =>
            let newRel : Relation := { id := gen m.uuidCount, fromId := sp.id, toId := tp.id,
                                       strength := strVal, description := m.inputRelDesc }
            let db2 := { m.db with relations := m.db.relations ++ [newRel] }
            ({ m with db := db2, uuidCount := m.uuidCount + 1,
                      relItems := refreshRelItems db2 sp,
                      relCursor := 0, state := .detail }, [db2])
        | _, _ => (m, [])
  else (m, [])

/-- `viewConfirmDeleteRelation` key handling. -/
def handleConfirmDeleteRelation (m : Model) (s : String) : Model × List Database :=
  if s == "y" || s == "Y" then
    match m.selectedRel, m.selectedPerson with
    | some sr, some sp =>
        let db2 := { m.db with relations := m.db.relations.filter (fun r => !(r.id == sr.id)) }
        ({ m with db := db2, relItems := refreshRelItems db2 sp,
                  relCursor := 0, state := .detail }, [db2])
    | _, _ => (m, [])
  else if s == "n" || s == "N" || s == "esc" then
    ({ m with state := .detail }, [])
  else (m, [])

/-- One step of `model.Update`: dispatch a key message to the current
state's handler; route the widget-level effects of unhandled messages to
the widget the state forwards them to (text edits in the tag view also
recompute the filtered tag list, as the Go default branch calls
`updateTagListFilter`). -/
def updateS (gen : Nat → String) (m : Model) (e : Event) : Model × List Database :=
  match e with
  | .key s =>
      match m.state with
      | .listPeople => handleListPeople m s
      | .detail => handleDetail m s
      | .personForm => handlePersonForm gen m s
      | .tagSelect => handleTagSelect m s
      | .confirmDeletePerson => handleConfirmDeletePerson m s
      | .relationTarget => handleRelationTarget m s
      | .relationForm => handleRelationForm gen m s
      | .confirmDeleteRelation => handleConfirmDeleteRelation m s
  | .peopleCursor i =>
      (if m.state = .listPeople ∨ m.state = .relationTarget then { m with peopleCursor := i } else m, [])
  | .relCursor i =>
      (if m.state = .detail then { m with relCursor := i } else m, [])
  | .nameText v =>
      (if m.state = .personForm then { m with inputName := v } else m, [])
  | .notesText v =>
      (if m.state = .personForm then { m with inputNotes := v } else m, [])
  | .relDescText v =>
      (if m.state = .relationForm then { m with inputRelDesc := v } else m, [])
  | .relStrText v =>
      (if m.state = .relationForm then { m with inputRelStr := v } else m, [])
  | .tagText v =>
      (if m.state = .tagSelect then
        { m with inputTag := v,
                 tagItems := updateTagListFilter m.db.people m.tempTags v,
                 tagCursor := 0 }
       else m, [])

-- ## Concrete sample values used by witnesses and counterexamples

/-- A person record (as raw JSON) without a `tags` key. -/
def personNoTags : List (String × JVal) :=
  [("id", .jstr "p1"), ("name", .jstr "A"), ("notes", .jstr "")]

/-- A persisted document with no `version` key: the case claim C3 is about. -/
def missingVersionDoc : List (String × JVal) :=
  [("people", JVal.jarr [JVal.jobj personNoTags])]

/-- The empty store file, as `RunMigrations` reads it: `os.ReadFile` yields
zero bytes and `json.Unmarshal` of zero bytes fails (unexpected end of JSON
input), so the decode step errors. -/
def emptyFile : MigFile := .badJSON

/-- A document at version 0.0.1 with a person lacking tags. -/
def doc001 : List (String × JVal) :=
  [("version", .jstr "0.0.1"), ("people", JVal.jarr [JVal.jobj personNoTags])]

/-- The document the migrator writes back for `doc001`. -/
def migrated001 : List (String × JVal) :=
  jset (migrate_0_0_1_to_1_0_0 doc001) "version" (.jstr "1.0.0")

/-- A constant identifier supply for concrete instantiations. -/
def genU : Nat → String := fun _ => "u"

/-- A legacy database as parsed from disk: one relation with an empty id. -/
def sampleLegacyDb : Database :=
  { people := [], relations := [{ id := "", fromId := "a", toId := "b", strength := 3, description := "x" }],
    version := "1.0.0" }

/-- A model value with every field at its boot value (the initial model of
`initialModel` over an empty database), used to build concrete states. -/
def baseModel : Model :=
  { state := .listPeople,
    db := { people := [], relations := [], version := DB_FORMAT_VERSION },
    peopleItems := [], peopleCursor := 0,
    relItems := [], relCursor := 0,
    tagItems := [], tagCursor := 0,
    selectedPerson := none, selectedRel := none, targetPerson := none,
    isEditing := false,
    inputName := "", inputNotes := "", inputRelDesc := "", inputRelStr := "",
    inputTag := "",
    nameFocused := false, relStrFocused := false,
    tempTags := [], uuidCount := 0 }

/-- Two people, for concrete relation-form states. -/
def personA : Person := { id := "pa", name := "Alice", notes := "", tags := [] }

/-- Second concrete person. -/
def personB : Person := { id := "pb", name := "Bob", notes := "", tags := [] }

/-- A concrete relation-form state about to commit a new relation between
`personA` and `personB` with strength text "7". -/
def relFormModel7 : Model :=
  { baseModel with
      state := .relationForm,
      db := { people := [personA, personB], relations := [], version := DB_FORMAT_VERSION },
      peopleItems := [personA, personB],
      selectedPerson := some personA, targetPerson := some personB,
      isEditing := false, relStrFocused := false, inputRelStr := "7" }

/-- Like `relFormModel7` but with the unparsable strength text "abc". -/
def relFormModelAbc : Model := { relFormModel7 with inputRelStr := "abc" }

/-- The person of the spec's tag-pool scenario. -/
def scenarioPerson : Person := { id := "p1", name := "A", notes := "", tags := ["work", "family"] }

/-- A person with the single tag "work". -/
def workPerson : Person := { id := "p1", name := "A", notes := "", tags := ["work"] }

/-- A tag-select state a legacy document can produce: the database holds a
person with the whitespace-only tag " ", the tag input is empty (so the
filter term is empty and the list shows every tag), and the single list
entry " " is highlighted.  `tagItems` equals
`updateTagListFilter db.people tempTags inputTag`, as the view maintains. -/
def wsTagModel : Model :=
  { baseModel with
      state := .tagSelect,
      db := { people := [{ id := "p1", name := "A", notes := "", tags := [" "] }],
              relations := [], version := DB_FORMAT_VERSION },
      tagItems := [" "], tagCursor := 0, inputTag := "", tempTags := [] }

/-- A tag-select state with an empty tag list and the typed text " new ". -/
def typedTagModel : Model :=
  { baseModel with state := .tagSelect, tagItems := [], inputTag := " new ", tempTags := [] }

/-- A confirm-delete state over a database holding `personA`, `personB`
and one relation between them, with `personA` selected for deletion. -/
def deleteModel : Model :=
  { baseModel with
      state := .confirmDeletePerson,
      db := { people := [personA, personB],
              relations := [{ id := "r1", fromId := "pa", toId := "pb",
                              strength := 3, description := "friend" }],
              version := DB_FORMAT_VERSION },
      peopleItems := [personA, personB],
      selectedPerson := some personA }

/-- A relation-target state whose people-list cursor rests on the very
person the relations are being created for. -/
def selfTargetModel : Model :=
  { baseModel with
      state := .relationTarget,
      db := deleteModel.db,
      peopleItems := [personA, personB], peopleCursor := 0,
      selectedPerson := some personA }

-- ## Helper lemmas

/-- Storing a key makes it readable back. -/
theorem jget_jset (fs : List (String × JVal)) (k : String) (v : JVal) :
    jget (jset fs k v) k = some v := by
  induction fs with
  | nil => simp [jget, jset, List.find?]
  | cons kv t ih =>
      obtain ⟨k2, v2⟩ := kv
      by_cases h : k2 = k
      · simp [jset, h, jget, List.find?]
      · have hb : (k2 == k) = false := by simpa using h
        simp [jset, hb, jget, List.find?] at ih ⊢
        exact ih

/-- The migration loop at its actual fuel: with the single-entry table,
exactly the start version `"0.0.1"` triggers the one transform (and then
stops, since no entry starts at `"1.0.0"`); any other start version exits
immediately. -/
theorem migLoop_two (fs : List (String × JVal)) (ver : String) :
    migLoop 2 fs ver false =
      (if ver = "0.0.1"
       then (jset (migrate_0_0_1_to_1_0_0 fs) "version" (.jstr "1.0.0"), true)
       else (fs, false)) := by
  by_cases h : ver = "0.0.1"
  · subst h
    simp [migLoop, migrations, List.find?]
  · have hb : ("0.0.1" == ver) = false := by
      simp only [beq_eq_false_iff_ne, ne_eq]
      exact fun hc => h hc.symm
    simp [migLoop, migrations, List.find?, hb, h]

/-- `runMigrations` on a decoded document: exactly the documents whose
recorded version is `"0.0.1"` are transformed (once) and rewritten; every
other version, including the `"0.0.0"` fallback for a missing version,
leaves the file untouched. -/
theorem runMigrations_doc (fs : List (String × JVal)) :
    runMigrations (.doc fs) =
      (if (match jget fs "version" with | some (.jstr s) => s | _ => "0.0.0") = "0.0.1"
       then .ok (some (jset (migrate_0_0_1_to_1_0_0 fs) "version" (.jstr "1.0.0")))
       else .ok none) := by
  simp only [runMigrations]
  rw [migLoop_two]
  by_cases h : (match jget fs "version" with | some (.jstr s) => s | _ => "0.0.0") = "0.0.1"
  · rw [if_pos h, if_pos h]
    rfl
  · rw [if_neg h, if_neg h]
    rfl

-- ## The claims

/-- C3: a document whose version field is missing is claimed to be treated
as the oldest known version (`"0.0.1"`) so that the 0.0.1→1.0.0 transform
runs.  The code instead falls back to `"0.0.0"`, which matches no entry of
the migration table, so running the migrator on such a document applies no
transform and performs no write: the document keeps no version and its
person keeps no `tags` field.  This theorem evaluates the code at the
failing input. -/
theorem C3_missing_version_doc_not_migrated :
    runMigrations (.doc missingVersionDoc) = .ok none ∧
    jget missingVersionDoc "version" = none ∧
    jget personNoTags "tags" = none :=
  ⟨rfl, rfl, rfl⟩

/-- C4 counterexample: on an empty store file the migrator does not return
without error — it returns the JSON decode error, which aborts startup. -/
theorem C4_empty_file_is_an_error :
    runMigrations emptyFile = Except.error () := rfl

/-- C4 (amended): for a document already at the current version, or a
missing store file, running the migrator is a no-op: it returns without
error and performs no write; and the migrator is idempotent — whenever a
run rewrites the file, a run on the rewritten document performs no write.
An empty (or otherwise undecodable) existing file instead makes the
migrator return an error. -/
theorem C4_no_op_and_idempotent :
    (∀ fs, jget fs "version" = some (.jstr "1.0.0") → runMigrations (.doc fs) = .ok none) ∧
    runMigrations .notExist = .ok none ∧
    (∀ fs fs2, runMigrations (.doc fs) = .ok (some fs2) → runMigrations (.doc fs2) = .ok none) := by
  refine ⟨?_, rfl, ?_⟩
  · intro fs h
    rw [runMigrations_doc, h]
    exact if_neg (by decide)
  · intro fs fs2 h
    rw [runMigrations_doc] at h
    by_cases hv : (match jget fs "version" with | some (.jstr s) => s | _ => "0.0.0") = "0.0.1"
    · rw [if_pos hv] at h
      have h2 : fs2 = jset (migrate_0_0_1_to_1_0_0 fs) "version" (.jstr "1.0.0") := by
        cases h; rfl
      rw [runMigrations_doc, h2, jget_jset]
      exact if_neg (by decide)
    · rw [if_neg hv] at h
      cases h

/-- C4 witness: the amended theorem applied at a document already at
version `"1.0.0"` and at the rewrite the migrator performs on `doc001`. -/
theorem C4_witness :
    runMigrations (.doc [("version", JVal.jstr "1.0.0")]) = .ok none ∧
    runMigrations (.doc migrated001) = .ok none :=
  ⟨C4_no_op_and_idempotent.1 [("version", JVal.jstr "1.0.0")] rfl,
   C4_no_op_and_idempotent.2.2 doc001 migrated001 rfl⟩

/-- C5 counterexample: two parse failures on which the claimed behavior —
an empty document stamped with the current schema version — fails.  A
syntax failure (garbage or empty bytes) leaves the zero-valued struct, so
the returned document's version is `""`, not the current version.  A type
error such as `{"people":[{"id":"p1","name":"A","notes":"","tags":["work"]}],"version":1}`
decodes `people` before `json.Unmarshal` fails, so the returned document
is not even empty. -/
theorem C5_parse_failure_not_current_version :
    ((loadData genU (FileRead.decodeErr { people := [], relations := [], version := "" })).1.version
        ≠ DB_FORMAT_VERSION ∧
      (loadData genU (FileRead.decodeErr { people := [], relations := [], version := "" })).1.version
        = "") ∧
    (loadData genU (FileRead.decodeErr { people := [workPerson], relations := [], version := "" })).1.people
      ≠ [] := by
  refine ⟨⟨?_, rfl⟩, ?_⟩ <;> decide

/-- C5 (amended): on a read (open) failure `loadData` returns the empty
document stamped with the current schema version and performs no write.  A
parse failure is ignored, not special-cased: `loadData` continues with
exactly the fields `json.Unmarshal` populated before failing and behaves as
if that document had decoded cleanly (including the backfill and its
possible write) — the zero-valued document with empty version string for a
syntax failure, but possibly a non-empty document for a type error.  In
every case no error is surfaced to the caller (the function's type has no
error channel). -/
theorem C5_silent_fallback (gen : Nat → String) :
    loadData gen .noFile =
      ({ people := [], relations := [], version := DB_FORMAT_VERSION }, none) ∧
    (∀ d : Database, loadData gen (.decodeErr d) = loadData gen (.parsed d)) ∧
    loadData gen (.decodeErr { people := [], relations := [], version := "" }) =
      ({ people := [], relations := [], version := "" }, none) :=
  ⟨rfl, fun _ => rfl, rfl⟩

/-- After the backfill pass every relation id is nonempty (given that the
identifier supply never produces the empty string). -/
theorem backfill_ids (gen : Nat → String) (hgen : ∀ n, gen n ≠ "") :
    ∀ (rs : List Relation) (k : Nat), ∀ r ∈ (backfillRels gen k rs).1, r.id ≠ "" := by
  intro rs
  induction rs with
  | nil => intro k r hr; simp [backfillRels] at hr
  | cons a t ih =>
      intro k r hr
      by_cases h : a.id = ""
      · simp only [backfillRels, if_pos h, List.mem_cons] at hr
        rcases hr with h1 | h1
        · rw [h1]; exact hgen k
        · exact ih (k + 1) r h1
      · simp only [backfillRels, if_neg h, List.mem_cons] at hr
        rcases hr with h1 | h1
        · rw [h1]; exact h
        · exact ih k r h1

/-- Backfill on a list with no empty ids is the identity and reports
nothing dirty. -/
theorem backfill_clean (gen : Nat → String) :
    ∀ (rs : List Relation), (∀ r ∈ rs, r.id ≠ "") →
      ∀ k, backfillRels gen k rs = (rs, k, false) := by
  intro rs
  induction rs with
  | nil => intro _ k; simp [backfillRels]
  | cons a t ih =>
      intro hclean k
      have ha : ¬a.id = "" := hclean a (List.mem_cons_self a t)
      have ht := ih (fun r hr => hclean r (List.mem_cons_of_mem a hr)) k
      simp only [backfillRels, if_neg ha, ht]

/-- Backfill reports dirty exactly when some relation id is empty. -/
theorem backfill_dirty_iff (gen : Nat → String) :
    ∀ (rs : List Relation) (k : Nat),
      (backfillRels gen k rs).2.2 = true ↔ ∃ r ∈ rs, r.id = "" := by
  intro rs
  induction rs with
  | nil => intro k; simp [backfillRels]
  | cons a t ih =>
      intro k
      by_cases h : a.id = ""
      · simp only [backfillRels, if_pos h]
        simp only [true_iff]
        exact ⟨a, List.mem_cons_self a t, h⟩
      · simp only [backfillRels, if_neg h]
        rw [ih k]
        constructor
        · rintro ⟨r, hr, hr2⟩; exact ⟨r, List.mem_cons_of_mem a hr, hr2⟩
        · rintro ⟨r, hr, hr2⟩
          rcases List.mem_cons.mp hr with h1 | h1
          · exact absurd (h1 ▸ hr2) h
          · exact ⟨r, h1, hr2⟩

/-- After the load tail every relation id is nonempty. -/
theorem loadBytes_ids (gen : Nat → String) (hgen : ∀ n, gen n ≠ "") (d : Database) :
    ∀ r ∈ (loadBytes gen d).1.relations, r.id ≠ "" := by
  intro r hr
  simp only [loadBytes] at hr
  exact backfill_ids gen hgen d.relations 0 r hr

/-- The load tail writes the file back exactly when some relation id in
the decoded document was empty. -/
theorem loadBytes_write_iff (gen : Nat → String) (d : Database) :
    (loadBytes gen d).2 = some (loadBytes gen d).1 ↔ ∃ r ∈ d.relations, r.id = "" := by
  simp only [loadBytes]
  by_cases hdirty : (backfillRels gen 0 d.relations).2.2 = true
  · rw [if_pos hdirty]
    simpa [hdirty] using (backfill_dirty_iff gen d.relations 0).mp hdirty
  · rw [if_neg hdirty]
    simp only [reduceCtorEq, false_iff]
    rw [← backfill_dirty_iff gen d.relations 0]
    simpa using hdirty

/-- A second load of the store the load tail leaves behind — the rewritten
file if it wrote, the original file `F` otherwise — returns the same
database and performs no write. -/
theorem loadBytes_idem (gen : Nat → String) (hgen : ∀ n, gen n ≠ "") (d : Database)
    (F : FileRead) (hF : loadData gen F = loadBytes gen d) :
    loadData gen (match (loadBytes gen d).2 with
        | some d2 => FileRead.parsed d2
        | none => F) = ((loadBytes gen d).1, none) := by
  have hids : ∀ r ∈ (backfillRels gen 0 d.relations).1, r.id ≠ "" :=
    backfill_ids gen hgen d.relations 0
  by_cases hdirty : (backfillRels gen 0 d.relations).2.2 = true
  · simp only [loadBytes, if_pos hdirty]
    simp only [loadData, loadBytes]
    rw [backfill_clean gen (backfillRels gen 0 d.relations).1 hids 0]
    rfl
  · simp only [loadBytes, if_neg hdirty]
    rw [hF]
    simp only [loadBytes, if_neg hdirty]

/-- C6: relation-ID backfill during load is idempotent.  `loadData` leaves
every relation with a nonempty id; for a document the store decoded —
cleanly or with an ignored unmarshal error — it writes the file back
exactly when some relation id was empty; and a second `loadData` on the
resulting store (the rewritten file if a write happened, the unchanged
file otherwise) returns the same database and performs no write. -/
theorem C6_load_backfill_idempotent (gen : Nat → String) (f : FileRead)
    (hgen : ∀ n, gen n ≠ "") :
    (∀ r ∈ (loadData gen f).1.relations, r.id ≠ "") ∧
    (∀ d, f = FileRead.parsed d ∨ f = FileRead.decodeErr d →
        ((loadData gen f).2 = some (loadData gen f).1 ↔ ∃ r ∈ d.relations, r.id = "")) ∧
    loadData gen (match (loadData gen f).2 with
        | some d2 => FileRead.parsed d2
        | none => f) = ((loadData gen f).1, none) := by
  cases f with
  | noFile =>
      refine ⟨?_, ?_, rfl⟩
      · intro r hr; simp [loadData] at hr
      · rintro d (hd | hd) <;> cases hd
  | decodeErr d =>
      refine ⟨loadBytes_ids gen hgen d, ?_, loadBytes_idem gen hgen d (.decodeErr d) rfl⟩
      rintro d2 (hd | hd)
      · cases hd
      · injection hd with hd2
        subst hd2
        exact loadBytes_write_iff gen d
  | parsed d =>
      refine ⟨loadBytes_ids gen hgen d, ?_, loadBytes_idem gen hgen d (.parsed d) rfl⟩
      rintro d2 (hd | hd)
      · injection hd with hd2
        subst hd2
        exact loadBytes_write_iff gen d
      · cases hd

/-- C6 witness: the theorem applied to a concrete legacy store holding one
relation with an empty id, under the constant nonempty supply. -/
theorem C6_witness :
    (∀ r ∈ (loadData genU (FileRead.parsed sampleLegacyDb)).1.relations, r.id ≠ "") ∧
    ((loadData genU (FileRead.parsed sampleLegacyDb)).2 =
        some (loadData genU (FileRead.parsed sampleLegacyDb)).1 ↔
      ∃ r ∈ sampleLegacyDb.relations, r.id = "") :=
  ⟨(C6_load_backfill_idempotent genU (FileRead.parsed sampleLegacyDb) (fun _ => by simp [genU])).1,
   (C6_load_backfill_idempotent genU (FileRead.parsed sampleLegacyDb) (fun _ => by simp [genU])).2.1
     sampleLegacyDb (Or.inl rfl)⟩

/-- Each element after a relation-edit commit is either an original
relation or carries exactly the committed strength. -/
theorem updateRelsFirst_mem (rs : List Relation) (rid : String) (v : Int) (ds : String) :
    ∀ r ∈ updateRelsFirst rs rid v ds, r ∈ rs ∨ r.strength = v := by
  induction rs with
  | nil => intro r hr; simp [updateRelsFirst] at hr
  | cons a t ih =>
      intro r hr
      by_cases h : (a.id == rid) = true
      · simp only [updateRelsFirst, if_pos h, List.mem_cons] at hr
        rcases hr with h1 | h1
        · right; rw [h1]
        · left; exact List.mem_cons_of_mem a h1
      · simp only [updateRelsFirst, if_neg h, List.mem_cons] at hr
        rcases hr with h1 | h1
        · left; rw [h1]; exact List.mem_cons_self a t
        · rcases ih r h1 with h2 | h2
          · left; exact List.mem_cons_of_mem a h2
          · right; exact h2

/-- Shape of a relation-form commit (`enter` with the description field
focused): every relation afterwards is either an original one or carries
the committed strength, the clamp of the parsed strength input. -/
theorem relForm_commit_strengths (gen : Nat → String) (m : Model)
    (hs : m.state = SState.relationForm) (hf : m.relStrFocused = false) :
    ∀ r ∈ ((updateS gen m (Event.key "enter")).1).db.relations,
      r ∈ m.db.relations ∨ r.strength = clampStrength (atoiVal m.inputRelStr) := by
  intro r hr
  simp only [updateS, hs] at hr
  simp only [handleRelationForm, hf] at hr
  simp only [show ("enter" == "esc") = false from rfl,
    show ("enter" == "tab") = false from rfl,
    show ("enter" == "enter") = true from rfl,
    Bool.false_eq_true, Bool.true_eq_false, if_false, if_true, ite_true, ite_false] at hr
  by_cases hE : m.isEditing = true
  · rw [if_pos hE] at hr
    cases hsr : m.selectedRel with
    | none =>
        rw [hsr] at hr
        cases hsp : m.selectedPerson with
        | none => rw [hsp] at hr; exact Or.inl hr
        | some sp => rw [hsp] at hr; exact Or.inl hr
    | some sr =>
        rw [hsr] at hr
        cases hsp : m.selectedPerson with
        | none => rw [hsp] at hr; exact Or.inl hr
        | some sp =>
            rw [hsp] at hr
            simp only [] at hr
            exact updateRelsFirst_mem m.db.relations sr.id
              (clampStrength (atoiVal m.inputRelStr)) m.inputRelDesc r hr
  · rw [if_neg hE] at hr
    cases hsp : m.selectedPerson with
    | none => rw [hsp] at hr; exact Or.inl hr
    | some sp =>
        rw [hsp] at hr
        cases htp : m.targetPerson with
        | none => rw [htp] at hr; exact Or.inl hr
        | some tp =>
            rw [htp] at hr
            simp only [List.mem_append, List.mem_singleton] at hr
            rcases hr with h1 | h1
            · exact Or.inl h1
            · right; rw [h1]

/-- Backfill never touches a relation's strength. -/
theorem backfill_strengths (gen : Nat → String) :
    ∀ (rs : List Relation) (k : Nat),
      (backfillRels gen k rs).1.map (fun r => r.strength) = rs.map (fun r => r.strength) := by
  intro rs
  induction rs with
  | nil => intro k; simp [backfillRels]
  | cons a t ih =>
      intro k
      by_cases h : a.id = ""
      · simp only [backfillRels, if_pos h, List.map_cons]
        rw [ih (k + 1)]
      · simp only [backfillRels, if_neg h, List.map_cons]
        rw [ih k]

/-- The clamp maps every integer into [1,5], sending values above 5 to 5
and values below 1 to 1. -/
theorem clampStrength_bounds (v : Int) :
    1 ≤ clampStrength v ∧ clampStrength v ≤ 5 ∧
      (5 < v → clampStrength v = 5) ∧ (v < 1 → clampStrength v = 1) := by
  simp only [clampStrength]
  split_ifs <;> omega

/-- C2: the strength a relation create or update commit stores is the clamp
into [1,5] of the parsed strength input — parsed values above 5 are stored
as 5 and parsed values below 1 as 1 (the inputs "7" and "-3" parse to 7 and
-3 and are stored as 5 and 1) — and loading a document from disk never
changes any stored strength (no clamp at load time). -/
theorem C2_strength_clamped_on_commit :
    (∀ v : Int, 1 ≤ clampStrength v ∧ clampStrength v ≤ 5 ∧
        (5 < v → clampStrength v = 5) ∧ (v < 1 → clampStrength v = 1)) ∧
    atoiVal "7" = 7 ∧ clampStrength (atoiVal "7") = 5 ∧
    atoiVal "-3" = -3 ∧ clampStrength (atoiVal "-3") = 1 ∧
    (∀ (gen : Nat → String) (m : Model),
        m.state = SState.relationForm → m.relStrFocused = false →
        ∀ r ∈ ((updateS gen m (Event.key "enter")).1).db.relations,
          r ∈ m.db.relations ∨
            (r.strength = clampStrength (atoiVal m.inputRelStr) ∧
             1 ≤ r.strength ∧ r.strength ≤ 5)) ∧
    (∀ (gen : Nat → String) (d : Database),
        ((loadData gen (FileRead.parsed d)).1).relations.map (fun r => r.strength) =
          d.relations.map (fun r => r.strength)) := by
  refine ⟨clampStrength_bounds, by decide, by decide, by decide, by decide, ?_, ?_⟩
  · intro gen m hs hf r hr
    rcases relForm_commit_strengths gen m hs hf r hr with h | h
    · exact Or.inl h
    · refine Or.inr ⟨h, ?_, ?_⟩
      · rw [h]; exact (clampStrength_bounds (atoiVal m.inputRelStr)).1
      · rw [h]; exact (clampStrength_bounds (atoiVal m.inputRelStr)).2.1
  · intro gen d
    simp only [loadData, loadBytes]
    exact backfill_strengths gen d.relations 0

/-- C2 witness: committing the concrete relation form with strength text
"7" leaves only relations that are original or clamped; evaluated at
`relFormModel7`, whose single committed relation stores strength 5. -/
theorem C2_witness :
    (relFormModel7.state = SState.relationForm ∧ relFormModel7.relStrFocused = false) ∧
    (∀ r ∈ ((updateS genU relFormModel7 (Event.key "enter")).1).db.relations,
        r ∈ relFormModel7.db.relations ∨
          (r.strength = clampStrength (atoiVal relFormModel7.inputRelStr) ∧
           1 ≤ r.strength ∧ r.strength ≤ 5)) :=
  ⟨⟨rfl, rfl⟩, C2_strength_clamped_on_commit.2.2.2.2.2.1 genU relFormModel7 rfl rfl⟩

/-- C10: a strength-field text that `strconv.Atoi` rejects (the empty
string and any text with a non-digit shape among them) parses to 0, and the
lower clamp stores strength 1 on commit: after such a commit every relation
is an original one or stores strength 1. -/
theorem C10_unparsable_strength_stores_one :
    (∀ s : String, intSyntaxOK s = false →
        atoiVal s = 0 ∧ clampStrength (atoiVal s) = 1) ∧
    intSyntaxOK "" = false ∧ intSyntaxOK "abc" = false ∧ intSyntaxOK "7a" = false ∧
    (∀ (gen : Nat → String) (m : Model),
        m.state = SState.relationForm → m.relStrFocused = false →
        intSyntaxOK m.inputRelStr = false →
        ∀ r ∈ ((updateS gen m (Event.key "enter")).1).db.relations,
          r ∈ m.db.relations ∨ r.strength = 1) := by
  have hzero : ∀ s : String, intSyntaxOK s = false → atoiVal s = 0 := by
    intro s h
    unfold intSyntaxOK at h
    cases hp : atoiParse s with
    | none => simp [atoiVal, hp]
    | some v => rw [hp] at h; simp at h
  refine ⟨?_, by decide, by decide, by decide, ?_⟩
  · intro s h
    refine ⟨hzero s h, ?_⟩
    rw [hzero s h]
    decide
  · intro gen m hs hf hin r hr
    rcases relForm_commit_strengths gen m hs hf r hr with h | h
    · exact Or.inl h
    · right
      rw [h, hzero m.inputRelStr hin]
      decide

/-- C10 witness: the theorem applied at the concrete relation-form state
whose strength text is "abc". -/
theorem C10_witness :
    (relFormModelAbc.state = SState.relationForm ∧ relFormModelAbc.relStrFocused = false ∧
      intSyntaxOK relFormModelAbc.inputRelStr = false) ∧
    (∀ r ∈ ((updateS genU relFormModelAbc (Event.key "enter")).1).db.relations,
        r ∈ relFormModelAbc.db.relations ∨ r.strength = 1) :=
  ⟨⟨rfl, rfl, by decide⟩,
   C10_unparsable_strength_stores_one.2.2.2.2 genU relFormModelAbc rfl rfl (by decide)⟩

/-- Lowercasing preserves emptiness. -/
theorem strToLower_empty (s : String) : strToLower s = "" ↔ s = "" := by
  unfold strToLower
  rw [String.ext_iff, String.ext_iff]
  simp

/-- Deduplication preserves membership. -/
theorem mem_dedupStr (l : List String) (a : String) : a ∈ dedupStr l ↔ a ∈ l := by
  induction l with
  | nil => simp [dedupStr]
  | cons s t ih =>
      by_cases h : s ∈ t
      · simp only [dedupStr, if_pos h, ih, List.mem_cons]
        constructor
        · exact Or.inr
        · rintro (rfl | h2)
          · exact h
          · exact h2
      · simp only [dedupStr, if_neg h, List.mem_cons, ih]

/-- The derived tag pool holds exactly the tags of the people. -/
theorem mem_getAllUniqueTags (people : List Person) (t : String) :
    t ∈ getAllUniqueTags people ↔ ∃ p ∈ people, t ∈ p.tags := by
  unfold getAllUniqueTags
  rw [mem_dedupStr]
  induction people with
  | nil => simp
  | cons p ps ih => simp [List.mem_append, ih]

/-- Insertion preserves membership. -/
theorem mem_insertSorted (x : String) (l : List String) (a : String) :
    a ∈ insertSorted x l ↔ a = x ∨ a ∈ l := by
  induction l with
  | nil => simp [insertSorted]
  | cons y t ih =>
      by_cases h : strLe x y = true
      · simp only [insertSorted, if_pos h, List.mem_cons]
      · simp only [insertSorted, if_neg h, List.mem_cons, ih]
        tauto

/-- Sorting preserves membership. -/
theorem mem_sortStrings (l : List String) (a : String) :
    a ∈ sortStrings l ↔ a ∈ l := by
  induction l with
  | nil => simp [sortStrings]
  | cons x t ih => simp only [sortStrings, mem_insertSorted, List.mem_cons, ih]

/-- The string order is total. -/
theorem listLe_total : ∀ as bs : List Char, listLe as bs = true ∨ listLe bs as = true := by
  intro as
  induction as with
  | nil => intro bs; left; rfl
  | cons a as2 ih =>
      intro bs
      cases bs with
      | nil => right; rfl
      | cons b bs2 =>
          by_cases h : a.toNat = b.toNat
          · simp only [listLe, if_pos h, if_pos h.symm]
            exact ih bs2
          · have h2 : ¬b.toNat = a.toNat := fun hc => h hc.symm
            simp only [listLe, if_neg h, if_neg h2, decide_eq_true_eq]
            omega

/-- Inserting into an adjacently-sorted list keeps it adjacently sorted. -/
theorem chain_insertSorted (x : String) :
    ∀ l : List String, List.Chain' (fun a b => strLe a b = true) l →
      List.Chain' (fun a b => strLe a b = true) (insertSorted x l) := by
  intro l
  induction l with
  | nil => intro _; simp [insertSorted]
  | cons y t ih =>
      intro h
      by_cases hxy : strLe x y = true
      · simp only [insertSorted, if_pos hxy]
        exact List.chain'_cons.mpr ⟨hxy, h⟩
      · simp only [insertSorted, if_neg hxy]
        have hyx : strLe y x = true := by
          rcases listLe_total x.toList y.toList with h1 | h1
          · exact absurd h1 hxy
          · exact h1
        have ht : List.Chain' (fun a b => strLe a b = true) t := h.tail
        refine List.chain'_cons'.mpr ⟨?_, ih ht⟩
        intro z hz
        cases t with
        | nil =>
            simp only [insertSorted, List.head?_cons, Option.mem_def, Option.some.injEq] at hz
            rw [← hz]; exact hyx
        | cons w t2 =>
            by_cases hxw : strLe x w = true
            · simp only [insertSorted, if_pos hxw, List.head?_cons, Option.mem_def,
                Option.some.injEq] at hz
              rw [← hz]; exact hyx
            · simp only [insertSorted, if_neg hxw, List.head?_cons, Option.mem_def,
                Option.some.injEq] at hz
              rw [← hz]
              exact (List.chain'_cons.mp h).1

/-- The insertion sort produces an adjacently-sorted list. -/
theorem chain_sortStrings (l : List String) :
    List.Chain' (fun a b => strLe a b = true) (sortStrings l) := by
  induction l with
  | nil => simp [sortStrings]
  | cons x t ih => exact chain_insertSorted x (sortStrings t) ih

/-- C8 counterexample: with stored tag "work" and the raw search term
" wo " the filter returns "work", although "work" does not contain " wo "
as a case-insensitive substring — the code matches against the *trimmed*
term, so the claim's characterization fails for terms with surrounding
whitespace. -/
theorem C8_raw_term_counterexample :
    updateTagListFilter [workPerson] [] " wo " = ["work"] ∧
    strContains (strToLower "work") (strToLower " wo ") = false :=
  ⟨by decide, by decide⟩

/-- C8 (amended): the tag filter returns exactly the subset of the union
of stored and pending tags whose text contains the search term **trimmed
of surrounding whitespace** as a case-insensitive substring; a term that is
empty after trimming returns every tag; the pool {"work","family"} with
pending "friend" and term "wo" yields exactly ["work"]; and the displayed
list is adjacently sorted in ascending (bytewise) lexicographic order. -/
theorem C8_tag_filter_characterized :
    (∀ (people : List Person) (temp : List String) (input t : String),
        t ∈ updateTagListFilter people temp input ↔
          ((∃ p ∈ people, t ∈ p.tags) ∨ t ∈ temp) ∧
          (trimSpace input = "" ∨
            strContains (strToLower t) (strToLower (trimSpace input)) = true)) ∧
    (∀ (people : List Person) (temp : List String) (input : String),
        List.Chain' (fun a b => strLe a b = true) (updateTagListFilter people temp input)) ∧
    updateTagListFilter [scenarioPerson] ["friend"] "wo" = ["work"] := by
  refine ⟨?_, ?_, by decide⟩
  · intro people temp input t
    simp only [updateTagListFilter, mem_sortStrings, List.mem_filter, mem_dedupStr,
      List.mem_append, mem_getAllUniqueTags, Bool.or_eq_true, beq_iff_eq, strToLower_empty]
  · intro people temp input
    exact chain_sortStrings _

/-- C9 counterexample: committing the tag selection with the
whitespace-only entry " " highlighted appends " " to the pending buffer,
although the candidate is empty after trimming — the code only trims the
free-typed text, never a highlighted list entry, so the claim's
"empty-after-trim candidates are ignored, buffer unchanged" fails here. -/
theorem C9_whitespace_entry_appended :
    ((updateS genU wsTagModel (Event.key "enter")).1).tempTags = [" "] ∧
    trimSpace " " = "" ∧
    wsTagModel.tempTags = [] :=
  ⟨by decide, by decide, rfl⟩

/-- C9 (amended): on TagSelect commit the resolved candidate — the
highlighted list entry when the list is nonempty (taken verbatim, without
trimming), otherwise the free-typed text trimmed of surrounding
whitespace — is appended to the pending buffer only if it is not already
present by exact string match; a candidate that *is the empty string* is
ignored and the buffer is unchanged (so whitespace-only typed text is
ignored, but a whitespace-only highlighted entry is appended); the view
returns to the person form and nothing is persisted. -/
theorem C9_tag_commit_characterized (gen : Nat → String) (m : Model)
    (hs : m.state = SState.tagSelect) :
    (resolveTagCandidate m = "" →
        ((updateS gen m (Event.key "enter")).1).tempTags = m.tempTags) ∧
    (resolveTagCandidate m ≠ "" → resolveTagCandidate m ∈ m.tempTags →
        ((updateS gen m (Event.key "enter")).1).tempTags = m.tempTags) ∧
    (resolveTagCandidate m ≠ "" → resolveTagCandidate m ∉ m.tempTags →
        ((updateS gen m (Event.key "enter")).1).tempTags =
          m.tempTags ++ [resolveTagCandidate m]) ∧
    (m.tagItems = [] → resolveTagCandidate m = trimSpace m.inputTag) ∧
    ((updateS gen m (Event.key "enter")).1).state = SState.personForm ∧
    (updateS gen m (Event.key "enter")).2 = [] := by
  have hred : updateS gen m (Event.key "enter") =
      (let cand := resolveTagCandidate m
       let temp2 := if cand == "" then m.tempTags
         else if m.tempTags.contains cand then m.tempTags
         else m.tempTags ++ [cand]
       ({ m with tempTags := temp2, state := .personForm, nameFocused := true }, [])) := by
    simp only [updateS, hs, handleTagSelect]
    rfl
  rw [hred]
  refine ⟨?_, ?_, ?_, ?_, ?_, rfl⟩
  · intro hc
    simp [hc]
  · intro hc hmem
    have hb : (resolveTagCandidate m == "") = false := by simpa using hc
    have hcont : m.tempTags.contains (resolveTagCandidate m) = true := by simpa using hmem
    simp [hb, hcont]
    exact hmem
  · intro hc hmem
    have hb : (resolveTagCandidate m == "") = false := by simpa using hc
    have hcont : m.tempTags.contains (resolveTagCandidate m) = false := by simpa using hmem
    simp [hb, hcont]
    exact hmem
  · intro hempty
    simp only [resolveTagCandidate, hempty]
    split
    · rfl
    · rfl
  · simp only []

/-- C9 witness: the amended theorem applied at the concrete state
`typedTagModel`, whose commit appends the trimmed typed text "new". -/
theorem C9_witness :
    ((updateS genU typedTagModel (Event.key "enter")).1).tempTags =
      typedTagModel.tempTags ++ [resolveTagCandidate typedTagModel] ∧
    resolveTagCandidate typedTagModel = "new" :=
  ⟨(C9_tag_commit_characterized genU typedTagModel rfl).2.2.1 (by decide) (by decide),
   by decide⟩

/-- What the cascade delete removes and keeps: afterwards no person has the
deleted id and no relation touches it; everything else stays. -/
theorem cascadeDelete_spec (db : Database) (pid : String) :
    (∀ q ∈ (cascadeDelete db pid).people, q.id ≠ pid) ∧
    (∀ r ∈ (cascadeDelete db pid).relations, r.fromId ≠ pid ∧ r.toId ≠ pid) ∧
    (∀ q ∈ db.people, q.id ≠ pid → q ∈ (cascadeDelete db pid).people) ∧
    (∀ r ∈ db.relations, r.fromId ≠ pid → r.toId ≠ pid → r ∈ (cascadeDelete db pid).relations) := by
  refine ⟨?_, ?_, ?_, ?_⟩
  · intro q hq
    simp only [cascadeDelete, List.mem_filter] at hq
    simpa using hq.2
  · intro r hr
    simp only [cascadeDelete, List.mem_filter, Bool.and_eq_true] at hr
    constructor
    · simpa using hr.2.1
    · simpa using hr.2.2
  · intro q hq hne
    simp only [cascadeDelete, List.mem_filter]
    exact ⟨hq, by simpa using hne⟩
  · intro r hr h1 h2
    simp only [cascadeDelete, List.mem_filter, Bool.and_eq_true]
    exact ⟨hr, by simpa using h1, by simpa using h2⟩

/-- C1: confirming the delete of the selected person `p` removes every
person with `p`'s id and every relation whose `fromId` or `toId` is `p`'s
id (and nothing else), and persists exactly once — a single `saveData`
call whose argument is the database after both removals. -/
theorem C1_confirmed_delete_cascades (gen : Nat → String) (m : Model) (p : Person)
    (hs : m.state = SState.confirmDeletePerson) (hp : m.selectedPerson = some p) :
    (∀ q ∈ ((updateS gen m (Event.key "y")).1).db.people, q.id ≠ p.id) ∧
    (∀ r ∈ ((updateS gen m (Event.key "y")).1).db.relations,
        r.fromId ≠ p.id ∧ r.toId ≠ p.id) ∧
    (∀ q ∈ m.db.people, q.id ≠ p.id → q ∈ ((updateS gen m (Event.key "y")).1).db.people) ∧
    (∀ r ∈ m.db.relations, r.fromId ≠ p.id → r.toId ≠ p.id →
        r ∈ ((updateS gen m (Event.key "y")).1).db.relations) ∧
    (updateS gen m (Event.key "y")).2 = [((updateS gen m (Event.key "y")).1).db] := by
  have hred : updateS gen m (Event.key "y") =
      ({ m with db := cascadeDelete m.db p.id,
                peopleItems := peopleToItems (cascadeDelete m.db p.id).people,
                state := .listPeople, selectedPerson := none },
       [cascadeDelete m.db p.id]) := by
    simp only [updateS, hs, handleConfirmDeletePerson, hp]
    rfl
  rw [hred]
  obtain ⟨h1, h2, h3, h4⟩ := cascadeDelete_spec m.db p.id
  exact ⟨h1, h2, h3, h4, rfl⟩

/-- C1 witness: the theorem applied at `deleteModel`; afterwards no person
or relation mentions `personA`'s id and the single save carries the final
database. -/
theorem C1_witness :
    (∀ q ∈ ((updateS genU deleteModel (Event.key "y")).1).db.people, q.id ≠ personA.id) ∧
    (∀ r ∈ ((updateS genU deleteModel (Event.key "y")).1).db.relations,
        r.fromId ≠ personA.id ∧ r.toId ≠ personA.id) ∧
    (updateS genU deleteModel (Event.key "y")).2 =
      [((updateS genU deleteModel (Event.key "y")).1).db] :=
  ⟨(C1_confirmed_delete_cascades genU deleteModel personA rfl rfl).1,
   (C1_confirmed_delete_cascades genU deleteModel personA rfl rfl).2.1,
   (C1_confirmed_delete_cascades genU deleteModel personA rfl rfl).2.2.2.2⟩

/-- The person-edit commit leaves the id sequence unchanged. -/
theorem peopleIds_updatePeopleFirst (ps : List Person) (pid nm ns : String) (tg : List String) :
    peopleIds (updatePeopleFirst ps pid nm ns tg) = peopleIds ps := by
  induction ps with
  | nil => rfl
  | cons q t ih =>
      by_cases h : (q.id == pid) = true
      · simp only [updatePeopleFirst, if_pos h, peopleIds, List.map_cons]
      · simp only [updatePeopleFirst, if_neg h, peopleIds, List.map_cons] at ih ⊢
        rw [ih]

/-- If an id occurs, `find?` by that id succeeds with a matching person. -/
theorem find_of_mem_ids (ps : List Person) (x : String) (hx : x ∈ peopleIds ps) :
    ∃ q, ps.find? (fun q => q.id == x) = some q ∧ q ∈ ps ∧ q.id = x := by
  induction ps with
  | nil => simp [peopleIds] at hx
  | cons a t ih =>
      by_cases h : (a.id == x) = true
      · exact ⟨a, by simp [List.find?, h], List.mem_cons_self a t, by simpa using h⟩
      · have hx2 : x ∈ peopleIds t := by
          simp only [peopleIds, List.map_cons, List.mem_cons] at hx
          rcases hx with h1 | h1
          · exact absurd (by simpa using h1.symm) h
          · exact h1
        obtain ⟨q, hfind, hmem, hid⟩ := ih hx2
        refine ⟨q, ?_, List.mem_cons_of_mem a hmem, hid⟩
        simp [List.find?, h, hfind]

/-- Every element of an updated relation list shares its endpoints with an
original relation. -/
theorem updateRelsFirst_endpoints (rs : List Relation) (rid : String) (v : Int) (ds : String) :
    ∀ r ∈ updateRelsFirst rs rid v ds, ∃ r0 ∈ rs, r.fromId = r0.fromId ∧ r.toId = r0.toId := by
  induction rs with
  | nil => intro r hr; simp [updateRelsFirst] at hr
  | cons a t ih =>
      intro r hr
      by_cases h : (a.id == rid) = true
      · simp only [updateRelsFirst, if_pos h, List.mem_cons] at hr
        rcases hr with h1 | h1
        · exact ⟨a, List.mem_cons_self a t, by rw [h1], by rw [h1]⟩
        · exact ⟨r, List.mem_cons_of_mem a h1, rfl, rfl⟩
      · simp only [updateRelsFirst, if_neg h, List.mem_cons] at hr
        rcases hr with h1 | h1
        · exact ⟨a, List.mem_cons_self a t, by rw [h1], by rw [h1]⟩
        · obtain ⟨r0, hr0, he⟩ := ih r h1
          exact ⟨r0, List.mem_cons_of_mem a hr0, he⟩

/-- The document invariant only depends on the id sequence of the people. -/
theorem docInv_people_ids (db : Database) (ps : List Person)
    (hids : peopleIds ps = peopleIds db.people) (h : DocInv db) :
    DocInv { db with people := ps } := by
  intro r hr
  obtain ⟨h1, h2, h3⟩ := h r hr
  exact ⟨by rw [hids]; exact h1, by rw [hids]; exact h2, h3⟩

/-- Appending a person preserves the document invariant. -/
theorem docInv_append_person (db : Database) (q : Person) (h : DocInv db) :
    DocInv { db with people := db.people ++ [q] } := by
  intro r hr
  obtain ⟨h1, h2, h3⟩ := h r hr
  refine ⟨?_, ?_, h3⟩
  · simp only [peopleIds, List.map_append, List.mem_append]
    exact Or.inl h1
  · simp only [peopleIds, List.map_append, List.mem_append]
    exact Or.inl h2

/-- Dropping relations preserves the document invariant. -/
theorem docInv_filter_rels (db : Database) (f : Relation → Bool) (h : DocInv db) :
    DocInv { db with relations := db.relations.filter f } := by
  intro r hr
  exact h r (List.mem_filter.mp hr).1

/-- The cascade delete preserves the document invariant. -/
theorem docInv_cascadeDelete (db : Database) (pid : String) (h : DocInv db) :
    DocInv (cascadeDelete db pid) := by
  intro r hr
  simp only [cascadeDelete, List.mem_filter, Bool.and_eq_true] at hr
  obtain ⟨hmem, hf, ht⟩ := hr
  obtain ⟨h1, h2, h3⟩ := h r hmem
  have hf2 : r.fromId ≠ pid := by simpa using hf
  have ht2 : r.toId ≠ pid := by simpa using ht
  refine ⟨?_, ?_, h3⟩
  · simp only [peopleIds, List.mem_map] at h1 ⊢
    obtain ⟨q, hq, hqid⟩ := h1
    exact ⟨q, List.mem_filter.mpr ⟨hq, by simp [hqid, hf2]⟩, hqid⟩
  · simp only [peopleIds, List.mem_map] at h2 ⊢
    obtain ⟨q, hq, hqid⟩ := h2
    exact ⟨q, List.mem_filter.mpr ⟨hq, by simp [hqid, ht2]⟩, hqid⟩

/-- The relation-edit commit preserves the document invariant. -/
theorem docInv_updateRels (db : Database) (rid : String) (v : Int) (ds : String)
    (h : DocInv db) :
    DocInv { db with relations := updateRelsFirst db.relations rid v ds } := by
  intro r hr
  obtain ⟨r0, hr0, he1, he2⟩ := updateRelsFirst_endpoints db.relations rid v ds r hr
  obtain ⟨h1, h2, h3⟩ := h r0 hr0
  rw [he1, he2]
  exact ⟨h1, h2, h3⟩

/-- Appending a relation between two distinct existing people preserves
the document invariant. -/
theorem docInv_new_relation (db : Database) (rid a b : String) (v : Int) (ds : String)
    (ha : a ∈ peopleIds db.people) (hb : b ∈ peopleIds db.people) (hab : a ≠ b)
    (h : DocInv db) :
    DocInv { db with relations :=
      db.relations ++ [{ id := rid, fromId := a, toId := b, strength := v, description := ds }] } := by
  intro r hr
  simp only [List.mem_append, List.mem_singleton] at hr
  rcases hr with h1 | h1
  · exact h r h1
  · rw [h1]
    exact ⟨ha, hb, hab⟩

/-- The list view preserves the controller invariant. -/
theorem inv_handleListPeople (m : Model) (s : String)
    (_hst : m.state = SState.listPeople) (h : Inv m) : Inv (handleListPeople m s).1 := by
  obtain ⟨hdoc, hitems, hsel, htgt⟩ := h
  simp only [handleListPeople]
  split_ifs with h1 h2
  · exact ⟨hdoc, hitems, fun hr => by simp [selReq] at hr, fun hr => by simp at hr⟩
  · cases hget : m.peopleItems.get? m.peopleCursor with
    | none => exact ⟨hdoc, hitems, hsel, htgt⟩
    | some p =>
        refine ⟨hdoc, hitems, ?_, fun hr => by simp at hr⟩
        intro _
        refine ⟨p, rfl, ?_⟩
        have hp : p ∈ m.db.people := hitems ▸ List.get?_mem hget
        simp only [peopleIds, List.mem_map]
        exact ⟨p, hp, rfl⟩
  · exact ⟨hdoc, hitems, hsel, htgt⟩

/-- The detail view preserves the controller invariant. -/
theorem inv_handleDetail (m : Model) (s : String)
    (hst : m.state = SState.detail) (h : Inv m) : Inv (handleDetail m s).1 := by
  obtain ⟨hdoc, hitems, hsel, htgt⟩ := h
  have hselD : ∃ p, m.selectedPerson = some p ∧ p.id ∈ peopleIds m.db.people := by
    apply hsel
    rw [hst]
    rfl
  simp only [handleDetail]
  split_ifs with h1 h2 h3 h4 h5 h6 h7
  · exact ⟨hdoc, hitems, fun hr => by simp [selReq] at hr, fun hr => by simp at hr⟩
  · obtain ⟨p, hp, hpid⟩ := hselD
    rw [hp]
    exact ⟨hdoc, hitems, fun _ => ⟨p, rfl, hpid⟩, fun hr => by simp at hr⟩
  · obtain ⟨p, hp, hpid⟩ := hselD
    rw [hp]
    exact ⟨hdoc, hitems, fun _ => ⟨p, rfl, hpid⟩, fun hr => by simp at hr⟩
  · exact ⟨hdoc, hitems, fun _ => hselD, fun hr => by simp at hr⟩
  · exact ⟨hdoc, hitems, fun _ => hselD, fun hr => by simp at hr⟩
  · cases hit : m.relItems.get? m.relCursor with
    | none => exact ⟨hdoc, hitems, hsel, htgt⟩
    | some it =>
        exact ⟨hdoc, hitems, fun _ => hselD, fun _ hE => by simp at hE⟩
  · cases hit : m.relItems.get? m.relCursor with
    | none => exact ⟨hdoc, hitems, hsel, htgt⟩
    | some it =>
        exact ⟨hdoc, hitems, fun _ => hselD, fun hr => by simp at hr⟩
  · exact ⟨hdoc, hitems, hsel, htgt⟩

/-- The tag view preserves the controller invariant. -/
theorem inv_handleTagSelect (m : Model) (s : String)
    (hst : m.state = SState.tagSelect) (h : Inv m) : Inv (handleTagSelect m s).1 := by
  obtain ⟨hdoc, hitems, hsel, htgt⟩ := h
  have hPF : ∀ tt : List String,
      Inv { m with tempTags := tt, state := SState.personForm, nameFocused := true } := by
    intro tt
    refine ⟨hdoc, hitems, ?_, fun hr => by simp at hr⟩
    intro hr
    apply hsel
    rw [hst]
    exact hr
  simp only [handleTagSelect]
  split_ifs with h1 h2 h3 h4 h5 h6 h7
  · exact hPF m.tempTags
  · exact ⟨hdoc, hitems, hsel, htgt⟩
  · exact ⟨hdoc, hitems, hsel, htgt⟩
  · exact ⟨hdoc, hitems, hsel, htgt⟩
  · exact hPF m.tempTags
  · exact hPF m.tempTags
  · exact hPF (m.tempTags ++ [resolveTagCandidate m])
  · exact ⟨hdoc, hitems, hsel, htgt⟩

/-- The person form preserves the controller invariant. -/
theorem inv_handlePersonForm (gen : Nat → String) (m : Model) (s : String)
    (hst : m.state = SState.personForm) (h : Inv m) : Inv (handlePersonForm gen m s).1 := by
  obtain ⟨hdoc, hitems, hsel, htgt⟩ := h
  simp only [handlePersonForm]
  split_ifs with h1 h2 h3 h4 h5 h6 h7
  · -- esc while editing: back to the detail view
    refine ⟨hdoc, hitems, ?_, fun hr => by simp at hr⟩
    intro _
    apply hsel
    rw [hst]
    exact h2
  · -- esc while creating: back to the list
    exact ⟨hdoc, hitems, fun hr => by simp [selReq] at hr, fun hr => by simp at hr⟩
  · -- tab: focus toggle only
    exact ⟨hdoc, hitems, hsel, htgt⟩
  · -- ctrl+g: open the tag view
    refine ⟨hdoc, hitems, ?_, fun hr => by simp at hr⟩
    intro hr
    apply hsel
    rw [hst]
    exact hr
  · -- enter on the name field: focus advance only
    exact ⟨hdoc, hitems, hsel, htgt⟩
  · -- enter commit while editing
    cases hp : m.selectedPerson with
    | none => exact ⟨hdoc, hitems, hsel, htgt⟩
    | some p =>
        obtain ⟨p0, hp0, hpid0⟩ := hsel (by rw [hst]; exact h7)
        rw [hp] at hp0
        injection hp0 with hp0e
        subst hp0e
        have hids := peopleIds_updatePeopleFirst m.db.people p.id m.inputName m.inputNotes m.tempTags
        have hmem2 : p.id ∈ peopleIds (updatePeopleFirst m.db.people p.id m.inputName m.inputNotes m.tempTags) := by
          rw [hids]
          exact hpid0
        obtain ⟨q, hfind, hqmem, hqid⟩ :=
          find_of_mem_ids (updatePeopleFirst m.db.people p.id m.inputName m.inputNotes m.tempTags) p.id hmem2
        refine ⟨docInv_people_ids m.db _ hids hdoc, rfl, ?_, fun hr => by simp at hr⟩
        intro _
        simp only [hfind]
        refine ⟨q, rfl, ?_⟩
        simp only [peopleIds, List.mem_map]
        exact ⟨q, hqmem, rfl⟩
  · -- enter commit while creating
    refine ⟨docInv_append_person m.db _ hdoc, rfl, fun hr => by simp [selReq] at hr,
      fun hr => by simp at hr⟩
  · exact ⟨hdoc, hitems, hsel, htgt⟩

/-- The delete-person confirmation preserves the controller invariant. -/
theorem inv_handleConfirmDeletePerson (m : Model) (s : String)
    (hst : m.state = SState.confirmDeletePerson) (h : Inv m) :
    Inv (handleConfirmDeletePerson m s).1 := by
  obtain ⟨hdoc, hitems, hsel, htgt⟩ := h
  have hselC : ∃ p, m.selectedPerson = some p ∧ p.id ∈ peopleIds m.db.people := by
    apply hsel
    rw [hst]
    rfl
  simp only [handleConfirmDeletePerson]
  split_ifs with h1 h2
  · cases hp : m.selectedPerson with
    | none => exact ⟨hdoc, hitems, hsel, htgt⟩
    | some p =>
        exact ⟨docInv_cascadeDelete m.db p.id hdoc, rfl,
          fun hr => by simp [selReq] at hr, fun hr => by simp at hr⟩
  · exact ⟨hdoc, hitems, fun _ => hselC, fun hr => by simp at hr⟩
  · exact ⟨hdoc, hitems, hsel, htgt⟩

/-- The relation-target picker preserves the controller invariant. -/
theorem inv_handleRelationTarget (m : Model) (s : String)
    (hst : m.state = SState.relationTarget) (h : Inv m) :
    Inv (handleRelationTarget m s).1 := by
  obtain ⟨hdoc, hitems, hsel, htgt⟩ := h
  have hselT : ∃ p, m.selectedPerson = some p ∧ p.id ∈ peopleIds m.db.people := by
    apply hsel
    rw [hst]
    rfl
  simp only [handleRelationTarget]
  split_ifs with h1 h2
  · exact ⟨hdoc, hitems, fun _ => hselT, fun hr => by simp at hr⟩
  · cases hget : m.peopleItems.get? m.peopleCursor with
    | none => exact ⟨hdoc, hitems, hsel, htgt⟩
    | some i =>
        cases hp : m.selectedPerson with
        | none => exact ⟨hdoc, hitems, hsel, htgt⟩
        | some sp =>
            obtain ⟨p0, hp0, hpid0⟩ := hselT
            rw [hp] at hp0
            injection hp0 with hp0e
            rw [← hp0e] at hpid0
            dsimp only
            split_ifs with hii
            · exact ⟨hdoc, hitems, hsel, htgt⟩
            · have hiid : i.id ∈ peopleIds m.db.people := by
                have hm : i ∈ m.db.people := hitems ▸ List.get?_mem hget
                simp only [peopleIds, List.mem_map]
                exact ⟨i, hm, rfl⟩
              have hne : sp.id ≠ i.id := by
                intro hc
                exact hii (by simp [hc])
              refine ⟨hdoc, hitems, fun _ => ⟨sp, rfl, hpid0⟩, ?_⟩
              intro _ _
              exact ⟨sp, i, rfl, rfl, hpid0, hiid, hne⟩
  · exact ⟨hdoc, hitems, hsel, htgt⟩

/-- The relation form preserves the controller invariant. -/
theorem inv_handleRelationForm (gen : Nat → String) (m : Model) (s : String)
    (hst : m.state = SState.relationForm) (h : Inv m) :
    Inv (handleRelationForm gen m s).1 := by
  obtain ⟨hdoc, hitems, hsel, htgt⟩ := h
  have hselF : ∃ p, m.selectedPerson = some p ∧ p.id ∈ peopleIds m.db.people := by
    apply hsel
    rw [hst]
    rfl
  simp only [handleRelationForm]
  split_ifs with h1 h2 h3 h4 h5
  · exact ⟨hdoc, hitems, fun _ => hselF, fun hr => by simp at hr⟩
  · exact ⟨hdoc, hitems, hsel, htgt⟩
  · exact ⟨hdoc, hitems, hsel, htgt⟩
  · -- commit while editing
    cases hsr : m.selectedRel with
    | none => exact ⟨hdoc, hitems, hsel, htgt⟩
    | some sr =>
        cases hp : m.selectedPerson with
        | none => exact ⟨hdoc, hitems, hsel, htgt⟩
        | some sp =>
            obtain ⟨p0, hp0, hpid0⟩ := hselF
            rw [hp] at hp0
            injection hp0 with hp0e
            rw [← hp0e] at hpid0
            dsimp only
            exact ⟨docInv_updateRels m.db sr.id _ _ hdoc, hitems,
              fun _ => ⟨sp, rfl, hpid0⟩, fun hr => by simp at hr⟩
  · -- commit while creating
    have hE : m.isEditing = false := by simpa using h5
    obtain ⟨p, t, hp, ht, hpid, htid, hne⟩ := htgt hst hE
    rw [hp, ht]
    dsimp only
    exact ⟨docInv_new_relation m.db (gen m.uuidCount) p.id t.id
        (clampStrength (atoiVal m.inputRelStr)) m.inputRelDesc hpid htid hne hdoc,
      hitems, fun _ => ⟨p, rfl, hpid⟩, fun hr => by simp at hr⟩
  · exact ⟨hdoc, hitems, hsel, htgt⟩

/-- The delete-relation confirmation preserves the controller invariant. -/
theorem inv_handleConfirmDeleteRelation (m : Model) (s : String)
    (hst : m.state = SState.confirmDeleteRelation) (h : Inv m) :
    Inv (handleConfirmDeleteRelation m s).1 := by
  obtain ⟨hdoc, hitems, hsel, htgt⟩ := h
  have hselC : ∃ p, m.selectedPerson = some p ∧ p.id ∈ peopleIds m.db.people := by
    apply hsel
    rw [hst]
    rfl
  simp only [handleConfirmDeleteRelation]
  split_ifs with h1 h2
  · cases hsr : m.selectedRel with
    | none => exact ⟨hdoc, hitems, hsel, htgt⟩
    | some sr =>
        cases hp : m.selectedPerson with
        | none => exact ⟨hdoc, hitems, hsel, htgt⟩
        | some sp =>
            obtain ⟨p0, hp0, hpid0⟩ := hselC
            rw [hp] at hp0
            injection hp0 with hp0e
            rw [← hp0e] at hpid0
            dsimp only
            exact ⟨docInv_filter_rels m.db _ hdoc, hitems,
              fun _ => ⟨sp, rfl, hpid0⟩, fun hr => by simp at hr⟩
  · exact ⟨hdoc, hitems, fun _ => hselC, fun hr => by simp at hr⟩
  · exact ⟨hdoc, hitems, hsel, htgt⟩

/-- C7: every step of the session controller preserves the Document
invariant — each relation's endpoints reference existing people and differ
(together with the supporting selection conditions the handlers rely on) —
and choosing the currently selected person as a relation target is
rejected outright: the step returns the model unchanged and performs no
write. -/
theorem C7_update_preserves_invariant :
    (∀ (gen : Nat → String) (m : Model) (e : Event), Inv m → Inv ((updateS gen m e).1)) ∧
    (∀ (gen : Nat → String) (m : Model) (p i : Person),
        m.state = SState.relationTarget → m.selectedPerson = some p →
        m.peopleItems.get? m.peopleCursor = some i → i.id = p.id →
        updateS gen m (Event.key "enter") = (m, [])) := by
  constructor
  · intro gen m e h
    cases e with
    | key s =>
        cases hst : m.state with
        | listPeople =>
            simp only [updateS, hst]
            exact inv_handleListPeople m s hst h
        | detail =>
            simp only [updateS, hst]
            exact inv_handleDetail m s hst h
        | personForm =>
            simp only [updateS, hst]
            exact inv_handlePersonForm gen m s hst h
        | relationTarget =>
            simp only [updateS, hst]
            exact inv_handleRelationTarget m s hst h
        | relationForm =>
            simp only [updateS, hst]
            exact inv_handleRelationForm gen m s hst h
        | confirmDeletePerson =>
            simp only [updateS, hst]
            exact inv_handleConfirmDeletePerson m s hst h
        | confirmDeleteRelation =>
            simp only [updateS, hst]
            exact inv_handleConfirmDeleteRelation m s hst h
        | tagSelect =>
            simp only [updateS, hst]
            exact inv_handleTagSelect m s hst h
    | peopleCursor i =>
        simp only [updateS]
        split_ifs <;> exact ⟨h.1, h.2.1, h.2.2.1, h.2.2.2⟩
    | relCursor i =>
        simp only [updateS]
        split_ifs <;> exact ⟨h.1, h.2.1, h.2.2.1, h.2.2.2⟩
    | nameText v =>
        simp only [updateS]
        split_ifs <;> exact ⟨h.1, h.2.1, h.2.2.1, h.2.2.2⟩
    | notesText v =>
        simp only [updateS]
        split_ifs <;> exact ⟨h.1, h.2.1, h.2.2.1, h.2.2.2⟩
    | relDescText v =>
        simp only [updateS]
        split_ifs <;> exact ⟨h.1, h.2.1, h.2.2.1, h.2.2.2⟩
    | relStrText v =>
        simp only [updateS]
        split_ifs <;> exact ⟨h.1, h.2.1, h.2.2.1, h.2.2.2⟩
    | tagText v =>
        simp only [updateS]
        split_ifs <;> exact ⟨h.1, h.2.1, h.2.2.1, h.2.2.2⟩
  · intro gen m p i hst hp hget hii
    have hb : (i.id == p.id) = true := by simp [hii]
    simp only [updateS, hst, handleRelationTarget, hget, hp]
    simp only [show ("enter" == "esc") = false from rfl,
      show ("enter" == "enter") = true from rfl,
      Bool.false_eq_true, Bool.true_eq_false, if_false, if_true, ite_true, ite_false]
    rw [if_pos hb]

/-- C7 witness: the preservation theorem applied to the concrete
confirm-delete step on `deleteModel` (discharging its invariant), and the
rejection fact applied to `selfTargetModel`, where the highlighted target
is the selected person. -/
theorem C7_witness :
    Inv ((updateS genU deleteModel (Event.key "y")).1) ∧
    updateS genU selfTargetModel (Event.key "enter") = (selfTargetModel, []) :=
  ⟨C7_update_preserves_invariant.1 genU deleteModel (Event.key "y")
      ⟨by unfold DocInv; decide, rfl, fun _ => ⟨personA, rfl, by decide⟩,
       fun hr => absurd hr (by decide)⟩,
   C7_update_preserves_invariant.2 genU selfTargetModel personA personA rfl rfl rfl rfl⟩

end Connect3

